import Mathlib

/-!
Shallow embedding of the TexEnvPreRender block scanners and range builders
(`src/main.ts`, `src/enumerateEnv.ts`, and the unnamed question-env module),
together with proofs of the specification claims about them.

Buffers are `String`s viewed as `List Char`; the JavaScript regular
expressions are compiled by hand into deterministic character scanners;
the mutable `lastIndex` cursor of the module-level regex objects is made
an explicit argument that the scan functions reset, just as the source
resets it at the start of every scan.
-/

/-- Ordinal rendering: bijective base-26 numeral over letters a-z, embedded
from `numberToLetter`.  The source loops `while (n > 0)` prepending
`String.fromCharCode(97 + (n-1) % 26)` and updating `n := (n-1) / 26`; the
loop is given the initial `n` as structural fuel (each iteration strictly
decreases `n`, so the fuel never runs out). -/
def numberToLetterAux : Nat → Nat → String
  | 0, _ => ""
  | _ + 1, 0 => ""
  | fuel + 1, n + 1 =>
    numberToLetterAux fuel (n / 26) ++ String.mk [Char.ofNat (97 + n % 26)]

/-- `numberToLetter` from `src/enumerateEnv.ts` lines 14-22. -/
def numberToLetter (n : Nat) : String :=
  numberToLetterAux n n

/-- Descending value table of `numberToRoman`: the source stores the map
`{1000:'m', 900:'cm', ...}` and sorts its numeric keys descending. -/
def romanTable : List (Nat × String) :=
  [(1000, "m"), (900, "cm"), (500, "d"), (400, "cd"), (100, "c"), (90, "xc"),
   (50, "l"), (40, "xl"), (10, "x"), (9, "ix"), (5, "v"), (4, "iv"), (1, "i")]

/-- `k` copies of `s` concatenated; the inner `while (num >= value)` loop of
`numberToRoman` appends `romanMap[value]` exactly `num / value` times and
leaves `num % value`. -/
def repeatStr (s : String) : Nat → String
  | 0 => ""
  | k + 1 => s ++ repeatStr s k

/-- The outer `for (const value of keys)` loop of `numberToRoman`. -/
def romanLoop : List (Nat × String) → Nat → String
  | [], _ => ""
  | (v, s) :: rest, num => repeatStr s (num / v) ++ romanLoop rest (num % v)

/-- `numberToRoman` from `src/enumerateEnv.ts` lines 24-42: out-of-range
inputs (`num <= 0 || num >= 4000`) fall back to `num.toString()`. -/
def numberToRoman (num : Int) : String :=
  if num ≤ 0 ∨ 4000 ≤ num then toString num
  else romanLoop romanTable num.toNat

/-- `ParsedFormat` from `src/enumerateEnv.ts` lines 44-48: `type` is one of
the characters `1 a A i I`. -/
structure ParsedFormat where
  type : Char
  decoratorStart : String
  decoratorEnd : String
deriving DecidableEq

/-- The `defaultFormat` constant of `parseFormat`. -/
def defaultFormat : ParsedFormat := ⟨'1', "", "."⟩

/-- The five alphabet characters `[1aAiI]` accepted by the format regex. -/
def alphabetChars : List Char := ['1', 'a', 'A', 'i', 'I']

/-- The strings matched by the trailing group `([.)]?[\)]?)` of the format
regex `^(\(?) *([1aAiI]) *([.)]?[\)]?)$` when anchored at the end of the
input: an optional character from `{., )}` followed by an optional `)`. -/
def shapeSuffixes : List (List Char) :=
  [[], ['.'], [')'], ['.', ')'], [')', ')']]

/-- JavaScript `String.prototype.trim` on the characters that occur here:
drop whitespace from both ends. -/
def trimAsciiWs (l : List Char) : List Char :=
  ((l.dropWhile Char.isWhitespace).reverse.dropWhile Char.isWhitespace).reverse

/-- The optional leading group `(\(?)` of the format regex: the captured
text and the remaining input.  The group is forced: when the input starts
with `(` the group must consume it (no later pattern element can match
`(`), otherwise it captures the empty string. -/
def splitParen (t : List Char) : String × List Char :=
  match t with
  | '(' :: rest => ("(", rest)
  | _ => ("", t)

/-- Hand-compiled form of the anchored regex
`^(\(?) *([1aAiI]) *([.)]?[\)]?)$` used by `parseFormat` (line 61 of
`src/enumerateEnv.ts`).  The optional leading `(` and the space runs are
forced (no other branch of the pattern can consume those characters), so
the match is deterministic; the final two optional punctuation classes
anchored by `$` succeed exactly on the remainders in `shapeSuffixes`.
Returns `(match1, match2, match3)` on success. -/
def shapeMatch (t : List Char) : Option (String × Char × String) :=
  match ((splitParen t).2).dropWhile (fun c => c = ' ') with
  | c :: rest =>
    if c ∈ alphabetChars then
      if rest.dropWhile (fun c => c = ' ') ∈ shapeSuffixes then
        some ((splitParen t).1, c, String.mk (rest.dropWhile (fun c => c = ' ')))
      else none
    else none
  | [] => none

/-- `parseFormat` from `src/enumerateEnv.ts` lines 50-81, paired with the
diagnostic flag (`true` exactly when the source calls `console.warn`).
`formatArg` is the raw bracket text (capture group 1 of the block regex)
or `none` when the group did not participate; the JavaScript guard
`if (!formatArg)` is also true for the empty string. -/
def parseFormatCore (formatArg : Option String) : ParsedFormat × Bool :=
  match formatArg with
  | none => (defaultFormat, false)
  | some s =>
    if s = "" then (defaultFormat, false)
    else
      let format := trimAsciiWs ((s.data.drop 1).dropLast)
      if format = [] then (defaultFormat, false)
      else
        match shapeMatch format with
        | some (pre, ty, suf) =>
          (⟨ty, pre, if suf ≠ "" then suf else if ty = '1' then "." else ""⟩, false)
        | none =>
          match format with
          | [c] =>
            if c ∈ alphabetChars then
              (⟨c, "", if c = '1' then "." else ""⟩, false)
            else (defaultFormat, true)
          | _ => (defaultFormat, true)

/-- The `ParsedFormat` computed by `parseFormat`. -/
def parseFormat (formatArg : Option String) : ParsedFormat :=
  (parseFormatCore formatArg).1

/-- Whether `parseFormat` emits its `console.warn` diagnostic. -/
def parseFormatWarns (formatArg : Option String) : Bool :=
  (parseFormatCore formatArg).2

/-- The `value` computed by the `switch (format.type)` of
`generateIdentifier` (`src/enumerateEnv.ts` lines 84-91); the `'1'` case is
also the `default` case. -/
def identifierValue (ty : Char) (counter : Nat) : String :=
  if ty = 'a' then numberToLetter counter
  else if ty = 'A' then (numberToLetter counter).toUpper
  else if ty = 'i' then numberToRoman counter
  else if ty = 'I' then (numberToRoman counter).toUpper
  else toString counter

/-- `generateIdentifier` from `src/enumerateEnv.ts` lines 83-93. -/
def generateIdentifier (counter : Nat) (format : ParsedFormat) : String :=
  format.decoratorStart ++ identifierValue format.type counter ++ format.decoratorEnd

/-! ### Literal delimiters of the two block grammars -/

/-- The literal head of `blockRegex`, `\begin{questionenv}[`. -/
def qBeginStr : String := "\\begin\x7bquestionenv\x7d["

/-- The literal tail of `blockRegex`, `\end{questionenv}`. -/
def qEndStr : String := "\\end\x7bquestionenv\x7d"

/-- The literal head of `enumerateBlockRegex`, `\begin{enumerate}`. -/
def eBeginStr : String := "\\begin\x7benumerate\x7d"

/-- The literal tail of `enumerateBlockRegex`, `\end{enumerate}`. -/
def eEndStr : String := "\\end\x7benumerate\x7d"

/-- The item marker literal of `itemRegex`, `\item`. -/
def itemStr : String := "\\item"

def qBeginL : List Char := qBeginStr.data
def qEndL : List Char := qEndStr.data
def eBeginL : List Char := eBeginStr.data
def eEndL : List Char := eEndStr.data
def itemL : List Char := itemStr.data

/-! ### Generic scanning primitives -/

/-- Index of the first position of `cs` at which `pat` occurs as a prefix
(a regex engine searching for a literal, or the lazy `(.*?)` group growing
until the following literal matches). -/
def findFrom (pat : List Char) : List Char → Option Nat
  | [] => if pat.isEmpty then some 0 else none
  | c :: rest =>
    if pat.isPrefixOf (c :: rest) then some 0
    else (findFrom pat rest).map (· + 1)

/-- Order-preserving concatenation of the per-match range lists: the
`RangeSetBuilder.add` calls of one scan, in emission order. -/
def concatMap (f : α → List β) : List α → List β
  | [] => []
  | a :: l => f a ++ concatMap f l

/-! ### The Named-Block (questionenv) scanner -/

/-- One match of `blockRegex = /\\begin\x7bquestionenv\x7d\[([^\]]+)\](.*?)\\end\x7bquestionenv\x7d/gs`:
`index` is `match.index`, `name` and `content` are the two capture groups,
`mlen` is `match[0].length`. -/
structure QBlock where
  index : Nat
  name : String
  content : String
  mlen : Nat
deriving DecidableEq

/-- The part of a `blockRegex` match after the literal head: `([^\]]+)`
greedily takes the maximal run of non-`]` characters (which must be
non-empty), the following `\]` is forced to be the next character, and
the lazy `(.*?)` then grows to the nearest following occurrence of the
end literal.  Returns the two captures and `match[0].length`. -/
def qMatchTail (rest : List Char) : Option (String × String × Nat) :=
  if rest.takeWhile (fun c => c ≠ ']') = [] then none
  else
    match rest.dropWhile (fun c => c ≠ ']') with
    | ']' :: rest3 =>
      match findFrom qEndL rest3 with
      | some k =>
        some (String.mk (rest.takeWhile (fun c => c ≠ ']')), String.mk (rest3.take k),
              qBeginL.length + (rest.takeWhile (fun c => c ≠ ']')).length + 1 + k
                + qEndL.length)
      | none => none
    | _ => none

/-- Attempt to match `blockRegex` at the start of `cs`: the literal head
must be a prefix, then `qMatchTail` handles the captures. -/
def qMatchAt (cs : List Char) : Option (String × String × Nat) :=
  if qBeginL.isPrefixOf cs then qMatchTail (cs.drop qBeginL.length)
  else none

/-- The `while ((match = blockRegex.exec(text)))` loop: find the leftmost
match at or after the current position, emit it, and resume at the match
end.  Structural fuel (initially the buffer length) bounds the loop; the
scan consumes at least one character per step, so the fuel suffices. -/
def qScanAux : Nat → List Char → Nat → List QBlock
  | 0, _, _ => []
  | _ + 1, [], _ => []
  | fuel + 1, c :: cs2, pos =>
    match qMatchAt (c :: cs2) with
    | some (nm, ct, len) =>
      ⟨pos, nm, ct, len⟩ :: qScanAux fuel ((c :: cs2).drop len) (pos + len)
    | none => qScanAux fuel cs2 (pos + 1)

/-- All matches of `blockRegex` in `cs`, with `pos` the absolute offset of
the head of `cs`. -/
def qScan (cs : List Char) (pos : Nat) : List QBlock :=
  qScanAux cs.length cs pos

/-- The closed set of decoration payloads emitted by the scanners:
`qStart`/`qEnd` are the question-env `StartMarkerWidget name` /
`EndMarkerWidget` replacements, `qMark` is the `bulldozerTEXT` content
mark, `eStart`/`eEnd` are the enumerate `StartEnumerateWidget formatArg` /
`EndEnumerateWidget` replacements, and `eItem` is the
`ItemIdentifierWidget label` replacement. -/
inductive RangeKind where
  | qStart (name : String)
  | qMark
  | qEnd
  | eStart (formatArg : Option String)
  | eItem (label : String)
  | eEnd
deriving DecidableEq

/-- One `builder.add(rFrom, rTo, deco)` call: a half-open document range
with its decoration payload. -/
structure DecoRange where
  rFrom : Nat
  rTo : Nat
  kind : RangeKind
deriving DecidableEq

/-- The three `builder.add` calls of `findAndDecorateQuestionEnvBlocks`
for one match (`src/unnamed/part_000` lines 77-106): the offsets are the
source's `blockStartIndex`, `startMarkerEndIndex`, `textStartIndex`,
`textEndIndex`, `endMarkerStartIndex`, `blockEndIndex`, and the content
mark is emitted only when `textEndIndex > textStartIndex`. -/
def qBlockRanges (b : QBlock) : List DecoRange :=
  let blockStartIndex := b.index
  let startMarkerEndIndex := blockStartIndex + qBeginStr.length + b.name.length + "]".length
  let textStartIndex := startMarkerEndIndex
  let textEndIndex := textStartIndex + b.content.length
  let endMarkerStartIndex := textEndIndex
  let blockEndIndex := endMarkerStartIndex + qEndStr.length
  ⟨blockStartIndex, startMarkerEndIndex, RangeKind.qStart b.name⟩
    :: ((if textEndIndex > textStartIndex then
          [⟨textStartIndex, textEndIndex, RangeKind.qMark⟩] else [])
        ++ [⟨endMarkerStartIndex, blockEndIndex, RangeKind.qEnd⟩])

/-- `findAndDecorateQuestionEnvBlocks` (`src/unnamed/part_000` lines
67-110).  `blockRegexCursor` is the mutable `lastIndex` of the
module-level `blockRegex` before the call; line 70 resets it to `0`
before scanning, so the incoming value is discarded. -/
def findAndDecorateQuestionEnvBlocks (text : String) (blockRegexCursor : Nat) :
    List DecoRange :=
  let cursor := 0
  concatMap qBlockRanges (qScan (text.data.drop cursor) cursor)

/-! ### The Ordered-List (enumerate) scanner -/

/-- One match of
`enumerateBlockRegex = /\\begin\x7benumerate\x7d(\[[^\]]*\])?(.*?)\\end\x7benumerate\x7d/gs`:
`formatArg` is capture group 1 (`none` when the optional group did not
participate), `content` is group 2, `mlen` is `match[0].length`. -/
structure EBlock where
  index : Nat
  formatArg : Option String
  content : String
  mlen : Nat
deriving DecidableEq

/-- An `enumerateBlockRegex` match with the optional group `(\[[^\]]*\])?`
absent: the lazy content starts right after the literal head and grows to
the nearest following end literal. -/
def eMatchNoFmt (rest : List Char) : Option (Option String × String × Nat) :=
  match findFrom eEndL rest with
  | some k =>
    some (none, String.mk (rest.take k), eBeginL.length + k + eEndL.length)
  | none => none

/-- The part of an `enumerateBlockRegex` match after the literal head.
The greedy optional group `(\[[^\]]*\])?` is tried first: it participates
when a `[` follows, a later `]` closes it, and an end literal occurs
after that `]`; otherwise the engine backtracks to the group being absent
(`eMatchNoFmt`). -/
def eMatchTail (rest : List Char) : Option (Option String × String × Nat) :=
  match rest with
  | '[' :: rest1 =>
    match rest1.dropWhile (fun c => c ≠ ']') with
    | ']' :: rest3 =>
      match findFrom eEndL rest3 with
      | some k =>
        some (some (String.mk ('[' :: ((rest1.takeWhile (fun c => c ≠ ']')) ++ [']']))),
              String.mk (rest3.take k),
              eBeginL.length + ((rest1.takeWhile (fun c => c ≠ ']')).length + 2) + k
                + eEndL.length)
      | none => eMatchNoFmt rest
    | _ => eMatchNoFmt rest
  | _ => eMatchNoFmt rest

/-- Attempt to match `enumerateBlockRegex` at the start of `cs`. -/
def eMatchAt (cs : List Char) : Option (Option String × String × Nat) :=
  if eBeginL.isPrefixOf cs then eMatchTail (cs.drop eBeginL.length)
  else none

/-- The `while ((match = enumerateBlockRegex.exec(text)))` loop, with the
same fuel discipline as `qScanAux`. -/
def eScanAux : Nat → List Char → Nat → List EBlock
  | 0, _, _ => []
  | _ + 1, [], _ => []
  | fuel + 1, c :: cs2, pos =>
    match eMatchAt (c :: cs2) with
    | some (fa, ct, len) =>
      ⟨pos, fa, ct, len⟩ :: eScanAux fuel ((c :: cs2).drop len) (pos + len)
    | none => eScanAux fuel cs2 (pos + 1)

/-- All matches of `enumerateBlockRegex` in `cs`. -/
def eScan (cs : List Char) (pos : Nat) : List EBlock :=
  eScanAux cs.length cs pos

/-- The `while ((itemMatch = itemRegex.exec(blockContent)))` loop:
successive non-overlapping occurrences of the literal `\item`, resuming
after each match; `pos` is the absolute offset of the head of `cs`. -/
def scanItemsAux : Nat → List Char → Nat → List Nat
  | 0, _, _ => []
  | _ + 1, [], _ => []
  | fuel + 1, c :: cs2, pos =>
    match findFrom itemL (c :: cs2) with
    | none => []
    | some k =>
      (pos + k) :: scanItemsAux fuel ((c :: cs2).drop (k + itemL.length))
        (pos + k + itemL.length)

/-- All `\item` match offsets in `cs`. -/
def scanItems (cs : List Char) (pos : Nat) : List Nat :=
  scanItemsAux cs.length cs pos

/-- The per-item `builder.add` calls of `findAndDecorateEnumerateBlocks`
(lines 188-202): the k-th offset gets the label
`generateIdentifier (itemCounter+1)` with the running counter incremented
first, and the replaced span is the `\item` marker itself. -/
def itemRanges (fmt : ParsedFormat) (contentStartIndex : Nat) :
    List Nat → Nat → List DecoRange
  | [], _ => []
  | off :: offs, itemCounter =>
    ⟨contentStartIndex + off, contentStartIndex + off + itemStr.length,
      RangeKind.eItem (generateIdentifier (itemCounter + 1) fmt)⟩
      :: itemRanges fmt contentStartIndex offs (itemCounter + 1)

/-- `formatArg ? formatArg.length : 0` (line 165 of
`src/enumerateEnv.ts`): the length contributed by the optional bracket
argument to the start-marker span. -/
def optLen : Option String → Nat
  | some f => f.length
  | none => 0

/-- `text.slice(contentStartIndex, contentEndIndex)` for one enumerate
block (line 185 of `src/enumerateEnv.ts`). -/
def eBlockContentSlice (text : String) (b : EBlock) : List Char :=
  let startMarkerEndIndex := b.index + eBeginStr.length + optLen b.formatArg
  let contentStartIndex := startMarkerEndIndex
  let contentEndIndex := contentStartIndex + b.content.length
  (text.data.drop contentStartIndex).take (contentEndIndex - contentStartIndex)

/-- The `builder.add` calls of `findAndDecorateEnumerateBlocks` for one
match (`src/enumerateEnv.ts` lines 160-212): start widget over the opening
marker (including the bracket argument when present), item widgets over
each `\item` in the content slice, end widget over the closing marker.
`itemRegexCursor` is the mutable `lastIndex` of the module-level
`itemRegex`; line 186 resets it to `0` before each block's item scan. -/
def eBlockRanges (text : String) (itemRegexCursor : Nat) (b : EBlock) :
    List DecoRange :=
  let blockStartIndex := b.index
  let startMarkerEndIndex := blockStartIndex + eBeginStr.length + optLen b.formatArg
  let contentStartIndex := startMarkerEndIndex
  let contentEndIndex := contentStartIndex + b.content.length
  let endMarkerStartIndex := contentEndIndex
  let blockEndIndex := endMarkerStartIndex + eEndStr.length
  let parsed := parseFormat b.formatArg
  let blockContent := eBlockContentSlice text b
  let cursor := 0
  ⟨blockStartIndex, startMarkerEndIndex, RangeKind.eStart b.formatArg⟩
    :: (itemRanges parsed contentStartIndex
          (scanItems (blockContent.drop cursor) cursor) 0
        ++ [⟨endMarkerStartIndex, blockEndIndex, RangeKind.eEnd⟩])

/-- `findAndDecorateEnumerateBlocks` (`src/enumerateEnv.ts` lines
153-216).  `blockRegexCursor` and `itemRegexCursor` are the mutable
`lastIndex` cursors of the two module-level regex objects before the
call; line 156 resets the block cursor before scanning and line 186
resets the item cursor before each block. -/
def findAndDecorateEnumerateBlocks (text : String)
    (blockRegexCursor itemRegexCursor : Nat) : List DecoRange :=
  let cursor := 0
  concatMap (eBlockRanges text itemRegexCursor) (eScan (text.data.drop cursor) cursor)

/-! ### The visible-ranges variant of the Named-Block scanner (`src/main.ts`) -/

/-- The per-match `builder.add` calls of `findAndDecorateBulldozerBlocks`
(`src/main.ts` lines 165-207): identical to `qBlockRanges` except that
every offset is shifted by the `from` offset of the visible slice the
match was found in. -/
def bulldozerBlockRanges (sliceFrom : Nat) (b : QBlock) : List DecoRange :=
  let blockStartIndex := sliceFrom + b.index
  let startMarkerEndIndex := blockStartIndex + qBeginStr.length + b.name.length + "]".length
  let textStartIndex := startMarkerEndIndex
  let textEndIndex := textStartIndex + b.content.length
  let endMarkerStartIndex := textEndIndex
  let blockEndIndex := endMarkerStartIndex + qEndStr.length
  ⟨blockStartIndex, startMarkerEndIndex, RangeKind.qStart b.name⟩
    :: ((if textEndIndex > textStartIndex then
          [⟨textStartIndex, textEndIndex, RangeKind.qMark⟩] else [])
        ++ [⟨endMarkerStartIndex, blockEndIndex, RangeKind.qEnd⟩])

/-- `findAndDecorateBulldozerBlocks` (`src/main.ts` lines 157-211): for
each visible range `(from, to)` the scanner runs on
`doc.sliceString(from, to)` with the regex cursor reset per slice, and
every emitted offset is `from +` the slice-relative offset. -/
def findAndDecorateBulldozerBlocks (text : String)
    (visible : List (Nat × Nat)) : List DecoRange :=
  concatMap (fun ft =>
    let sliceText := (text.data.drop ft.1).take (ft.2 - ft.1)
    let cursor := 0
    concatMap (bulldozerBlockRanges ft.1) (qScan (sliceText.drop cursor) cursor))
    visible

/-! ### Specification-side helper definitions used to state the claims -/

/-- `tiles a l b` holds when the ranges of `l` are contiguous and exactly
cover the half-open interval `[a, b)` in order, with no gaps and no
overlaps. -/
def tiles (a : Nat) : List DecoRange → Nat → Bool
  | [], b => a == b
  | r :: rs, b => (r.rFrom == a) && decide (r.rFrom ≤ r.rTo) && tiles r.rTo rs b

/-- `SortedWithin a l b`: the ranges of `l` are non-empty, pairwise
non-overlapping, in strictly increasing order, and contained in `[a, b]`. -/
def SortedWithin (a : Nat) : List DecoRange → Nat → Prop
  | [], b => a ≤ b
  | r :: rs, b => a ≤ r.rFrom ∧ r.rFrom < r.rTo ∧ SortedWithin r.rTo rs b

/-- `OffsOK a b offs`: item-marker offsets are in increasing order, at
least `a`, separated by the marker length, and end by `b`. -/
def OffsOK (a b : Nat) : List Nat → Prop
  | [] => a ≤ b
  | o :: os => a ≤ o ∧ o + itemL.length ≤ b ∧ OffsOK (o + itemL.length) b os

/-- The label carried by an item range, if any. -/
def itemLabelOf (r : DecoRange) : Option String :=
  match r.kind with
  | RangeKind.eItem s => some s
  | _ => none

/-- Value of a bijective base-26 numeral over a-z (digit `c` contributes
`c - 96`, positions weighted by powers of 26).  Used to state that
`numberToLetter` produces exactly the bijective base-26 numeral. -/
def letterVal (l : List Char) : Nat :=
  l.foldl (fun acc c => acc * 26 + (c.toNat - 96)) 0

/-- Strict lexicographic comparison of character lists, by code point. -/
def lexLtB : List Char → List Char → Bool
  | [], [] => false
  | [], _ :: _ => true
  | _ :: _, [] => false
  | a :: as, b :: bs => if a < b then true else if b < a then false else lexLtB as bs

/-- Length-then-lexicographic strict order on strings. -/
def lenLexLt (s t : String) : Prop :=
  s.length < t.length ∨ (s.length = t.length ∧ lexLtB s.data t.data = true)

instance : DecidableRel lenLexLt := fun s t =>
  inferInstanceAs
    (Decidable (s.length < t.length ∨ (s.length = t.length ∧ lexLtB s.data t.data = true)))

/-- Executable check that adjacent elements of a string list are in
strict length-then-lexicographic order. -/
def lenLexChainB : List String → Bool
  | [] => true
  | [_] => true
  | s :: t :: rest => decide (lenLexLt s t) && lenLexChainB (t :: rest)

/-- The shape described by claim C3 for recognized bracket arguments, as
amended: an optional `(`, then (spaces allowed on either side) a single
alphabet character from `1 a A i I`, then an optional punctuation
character from `{., )}` followed by an optional extra `)`. -/
def claimShape (t : List Char) : Bool :=
  match ((splitParen t).2).dropWhile (fun c => c = ' ') with
  | c :: rest =>
    decide (c ∈ alphabetChars) &&
      decide ((rest.dropWhile (fun c => c = ' ')) ∈ shapeSuffixes)
  | [] => false

/-- Shift a range by a slice offset. -/
def shiftRange (f : Nat) (r : DecoRange) : DecoRange :=
  ⟨f + r.rFrom, f + r.rTo, r.kind⟩

/-! ### Basic facts about the scanning primitives -/

theorem prefixOfLength : ∀ {p l : List Char}, p.isPrefixOf l = true → p.length ≤ l.length
  | [], _, _ => Nat.zero_le _
  | _ :: _, [], h => by simp [List.isPrefixOf] at h
  | a :: p, b :: l, h => by
    simp only [List.isPrefixOf, Bool.and_eq_true] at h
    simpa using Nat.succ_le_succ (prefixOfLength h.2)

theorem prefixOfTake : ∀ {p : List Char} {k : Nat} {l : List Char},
    p.isPrefixOf (l.take k) = true → p.isPrefixOf l = true
  | [], _, l, _ => by cases l <;> rfl
  | _ :: _, 0, _, h => by simp [List.isPrefixOf] at h
  | _ :: _, _ + 1, [], h => by simp [List.isPrefixOf] at h
  | a :: p, k + 1, b :: l, h => by
    simp only [List.take, List.isPrefixOf, Bool.and_eq_true] at h ⊢
    exact ⟨h.1, prefixOfTake h.2⟩

theorem findFrom_bound {pat : List Char} : ∀ {cs : List Char} {k : Nat},
    findFrom pat cs = some k → k + pat.length ≤ cs.length := by
  intro cs
  induction cs with
  | nil =>
    intro k h
    simp only [findFrom] at h
    split at h
    · cases h
      simpa [List.length_eq_zero] using List.isEmpty_iff.mp (by assumption)
    · cases h
  | cons c rest ih =>
    intro k h
    simp only [findFrom] at h
    split at h
    · cases h
      simpa using prefixOfLength (by assumption)
    · rcases Option.map_eq_some'.mp h with ⟨k0, hk0, rfl⟩
      have := ih hk0
      simp only [List.length_cons]
      omega

theorem findFrom_min {pat : List Char} : ∀ {cs : List Char} {k : Nat},
    findFrom pat cs = some k → ∀ j, j < k → pat.isPrefixOf (cs.drop j) = false := by
  intro cs
  induction cs with
  | nil =>
    intro k h j hj
    simp only [findFrom] at h
    split at h
    · cases h; omega
    · cases h
  | cons c rest ih =>
    intro k h j hj
    simp only [findFrom] at h
    split at h
    · cases h; omega
    · rcases Option.map_eq_some'.mp h with ⟨k0, hk0, rfl⟩
      match j with
      | 0 =>
        simp only [List.drop_zero]
        exact Bool.not_eq_true _ ▸ (by assumption)
      | j + 1 =>
        simpa using ih hk0 j (by omega)

theorem takeWhile_dropWhile_length (p : Char → Bool) (l : List Char) :
    (l.takeWhile p).length + (l.dropWhile p).length = l.length := by
  conv_rhs => rw [← List.takeWhile_append_dropWhile p l]
  rw [List.length_append]

/-! ### Well-formedness of single matches -/

theorem take_drop_comm (l : List Char) (k j : Nat) (hj : j ≤ k) :
    (l.take k).drop j = (l.drop j).take (k - j) := by
  conv_lhs => rw [show k = j + (k - j) by omega]
  exact (List.take_drop j (k - j) l).symm

theorem noPatInTake {pat l : List Char} {k : Nat} (hpat : pat ≠ [])
    (hff : findFrom pat l = some k) :
    ∀ j, pat.isPrefixOf ((l.take k).drop j) = false := by
  intro j
  by_cases hj : j < k
  · by_contra hcon
    rw [Bool.not_eq_false] at hcon
    have hpre : pat.isPrefixOf (l.drop j) = true := by
      rw [take_drop_comm l k j (Nat.le_of_lt hj)] at hcon
      exact prefixOfTake hcon
    rw [findFrom_min hff j hj] at hpre
    cases hpre
  · rw [List.drop_of_length_le]
    · match pat, hpat with
      | _ :: _, _ => rfl
    · simp only [List.length_take]
      omega

theorem qMatchTail_wf {rest : List Char} {nm ct : String} {L : Nat}
    (h : qMatchTail rest = some (nm, ct, L)) :
    L = qBeginStr.length + nm.length + 1 + ct.length + qEndStr.length ∧
    L ≤ qBeginL.length + rest.length ∧
    (∀ j, qEndL.isPrefixOf (ct.data.drop j) = false) := by
  unfold qMatchTail at h
  split at h
  · cases h
  next h0 =>
    split at h
    next rest3 heq2 =>
      split at h
      next k heqf =>
        cases h
        have hb := findFrom_bound heqf
        have hlen : (rest.takeWhile (fun c => c ≠ ']')).length + (rest3.length + 1)
            = rest.length := by
          have hsum := takeWhile_dropWhile_length (fun c => decide ¬(c = ']')) rest
          rw [heq2] at hsum
          simpa using hsum
        have hq : qEndL.length = qEndStr.length := rfl
        have hqpos : 0 < qEndL.length := by decide
        have hk : k ≤ rest3.length := by omega
        have hct : (String.mk (rest3.take k)).length = k := by
          rw [String.length_mk, List.length_take]
          omega
        have hnm : (String.mk (rest.takeWhile (fun c => c ≠ ']'))).length
            = (rest.takeWhile (fun c => c ≠ ']')).length := String.length_mk _
        have hqb : qBeginL.length = qBeginStr.length := rfl
        refine ⟨by omega, by omega, ?_⟩
        intro j
        show qEndL.isPrefixOf ((rest3.take k).drop j) = false
        exact noPatInTake (by decide) heqf j
      next => cases h
    next => cases h

theorem qMatchAt_wf {cs : List Char} {nm ct : String} {L : Nat}
    (h : qMatchAt cs = some (nm, ct, L)) :
    L = qBeginStr.length + nm.length + 1 + ct.length + qEndStr.length ∧
    L ≤ cs.length ∧
    (∀ j, qEndL.isPrefixOf (ct.data.drop j) = false) := by
  unfold qMatchAt at h
  split at h
  next hp =>
    obtain ⟨h1, h2, h3⟩ := qMatchTail_wf h
    have hple : qBeginL.length ≤ cs.length := prefixOfLength hp
    have hdlen : (cs.drop qBeginL.length).length = cs.length - qBeginL.length :=
      List.length_drop _ _
    exact ⟨h1, by omega, h3⟩
  · cases h

theorem eMatchNoFmt_wf {rest : List Char} {fa : Option String} {ct : String} {L : Nat}
    (h : eMatchNoFmt rest = some (fa, ct, L)) :
    fa = none ∧
    L = eBeginStr.length + optLen fa + ct.length + eEndStr.length ∧
    L ≤ eBeginL.length + rest.length ∧
    (∀ j, eEndL.isPrefixOf (ct.data.drop j) = false) := by
  unfold eMatchNoFmt at h
  split at h
  next k heqf =>
    cases h
    have hb := findFrom_bound heqf
    have he : eEndL.length = eEndStr.length := rfl
    have hepos : 0 < eEndL.length := by decide
    have hct : (String.mk (rest.take k)).length = k := by
      rw [String.length_mk, List.length_take]
      omega
    refine ⟨rfl, ?_, ?_, ?_⟩
    · simp only [optLen]
      have heb : eBeginL.length = eBeginStr.length := rfl
      omega
    · omega
    · intro j
      show eEndL.isPrefixOf ((rest.take k).drop j) = false
      exact noPatInTake (by decide) heqf j
  · cases h

theorem eMatchTail_wf {rest : List Char} {fa : Option String} {ct : String} {L : Nat}
    (h : eMatchTail rest = some (fa, ct, L)) :
    L = eBeginStr.length + optLen fa + ct.length + eEndStr.length ∧
    L ≤ eBeginL.length + rest.length ∧
    (∀ j, eEndL.isPrefixOf (ct.data.drop j) = false) := by
  unfold eMatchTail at h
  split at h
  next rest1 =>
    split at h
    next rest3 heq2 =>
      split at h
      next k heqf =>
        cases h
        have hb := findFrom_bound heqf
        have hlen : (rest1.takeWhile (fun c => c ≠ ']')).length + (rest3.length + 1)
            = rest1.length := by
          have hsum := takeWhile_dropWhile_length (fun c => decide ¬(c = ']')) rest1
          rw [heq2] at hsum
          simpa using hsum
        have he : eEndL.length = eEndStr.length := rfl
        have heb : eBeginL.length = eBeginStr.length := rfl
        have hepos : 0 < eEndL.length := by decide
        have hk : k ≤ rest3.length := by omega
        have hct : (String.mk (rest3.take k)).length = k := by
          rw [String.length_mk, List.length_take]
          omega
        have hfa : optLen (some (String.mk ('[' :: ((rest1.takeWhile (fun c => c ≠ ']')) ++ [']']))))
            = (rest1.takeWhile (fun c => c ≠ ']')).length + 2 := by
          simp [optLen, String.length_mk]
        refine ⟨by rw [hfa]; omega, ?_, ?_⟩
        · simp only [List.length_cons]
          omega
        · intro j
          show eEndL.isPrefixOf ((rest3.take k).drop j) = false
          exact noPatInTake (by decide) heqf j
      next =>
        obtain ⟨h1, h2, h3, h4⟩ := eMatchNoFmt_wf h
        exact ⟨h2, h3, h4⟩
    next =>
      obtain ⟨h1, h2, h3, h4⟩ := eMatchNoFmt_wf h
      exact ⟨h2, h3, h4⟩
  next =>
    obtain ⟨h1, h2, h3, h4⟩ := eMatchNoFmt_wf h
    exact ⟨h2, h3, h4⟩

theorem eMatchAt_wf {cs : List Char} {fa : Option String} {ct : String} {L : Nat}
    (h : eMatchAt cs = some (fa, ct, L)) :
    L = eBeginStr.length + optLen fa + ct.length + eEndStr.length ∧
    L ≤ cs.length ∧
    (∀ j, eEndL.isPrefixOf (ct.data.drop j) = false) := by
  unfold eMatchAt at h
  split at h
  next hp =>
    obtain ⟨h1, h2, h3⟩ := eMatchTail_wf h
    have hple : eBeginL.length ≤ cs.length := prefixOfLength hp
    have hdlen : (cs.drop eBeginL.length).length = cs.length - eBeginL.length :=
      List.length_drop _ _
    exact ⟨h1, by omega, h3⟩
  · cases h

/-! ### Facts about the scan loops -/

theorem qScanAux_mem : ∀ (fuel : Nat) (cs : List Char) (pos : Nat) (b : QBlock),
    b ∈ qScanAux fuel cs pos →
    pos ≤ b.index ∧ ∃ cs2, qMatchAt cs2 = some (b.name, b.content, b.mlen) := by
  intro fuel
  induction fuel with
  | zero => intro cs pos b h; simp [qScanAux] at h
  | succ n ih =>
    intro cs pos b h
    match cs with
    | [] => simp [qScanAux] at h
    | c :: cs2 =>
      rw [qScanAux] at h
      cases hm : qMatchAt (c :: cs2) with
      | some v =>
        obtain ⟨nm, ct, L⟩ := v
        rw [hm] at h
        rcases List.mem_cons.mp h with rfl | h2
        · exact ⟨Nat.le_refl _, ⟨c :: cs2, hm⟩⟩
        · obtain ⟨h1, h3⟩ := ih _ _ _ h2
          exact ⟨by omega, h3⟩
      | none =>
        rw [hm] at h
        obtain ⟨h1, h3⟩ := ih _ _ _ h
        exact ⟨by omega, h3⟩

theorem qScanAux_chain : ∀ (fuel : Nat) (cs : List Char) (pos : Nat),
    List.Chain' (fun a b => a.index + a.mlen ≤ b.index) (qScanAux fuel cs pos) := by
  intro fuel
  induction fuel with
  | zero => intro cs pos; simp [qScanAux]
  | succ n ih =>
    intro cs pos
    match cs with
    | [] => simp [qScanAux]
    | c :: cs2 =>
      rw [qScanAux]
      cases hm : qMatchAt (c :: cs2) with
      | some v =>
        obtain ⟨nm, ct, L⟩ := v
        refine List.chain'_cons'.mpr ⟨?_, ih _ _⟩
        intro y hy
        have hmem : y ∈ qScanAux n ((c :: cs2).drop L) (pos + L) :=
          List.mem_of_mem_head? hy
        exact (qScanAux_mem _ _ _ _ hmem).1
      | none => exact ih _ _

theorem eScanAux_mem : ∀ (fuel : Nat) (cs : List Char) (pos : Nat) (b : EBlock),
    b ∈ eScanAux fuel cs pos →
    pos ≤ b.index ∧ ∃ cs2, eMatchAt cs2 = some (b.formatArg, b.content, b.mlen) := by
  intro fuel
  induction fuel with
  | zero => intro cs pos b h; simp [eScanAux] at h
  | succ n ih =>
    intro cs pos b h
    match cs with
    | [] => simp [eScanAux] at h
    | c :: cs2 =>
      rw [eScanAux] at h
      cases hm : eMatchAt (c :: cs2) with
      | some v =>
        obtain ⟨fa, ct, L⟩ := v
        rw [hm] at h
        rcases List.mem_cons.mp h with rfl | h2
        · exact ⟨Nat.le_refl _, ⟨c :: cs2, hm⟩⟩
        · obtain ⟨h1, h3⟩ := ih _ _ _ h2
          exact ⟨by omega, h3⟩
      | none =>
        rw [hm] at h
        obtain ⟨h1, h3⟩ := ih _ _ _ h
        exact ⟨by omega, h3⟩

theorem eScanAux_chain : ∀ (fuel : Nat) (cs : List Char) (pos : Nat),
    List.Chain' (fun a b => a.index + a.mlen ≤ b.index) (eScanAux fuel cs pos) := by
  intro fuel
  induction fuel with
  | zero => intro cs pos; simp [eScanAux]
  | succ n ih =>
    intro cs pos
    match cs with
    | [] => simp [eScanAux]
    | c :: cs2 =>
      rw [eScanAux]
      cases hm : eMatchAt (c :: cs2) with
      | some v =>
        obtain ⟨fa, ct, L⟩ := v
        refine List.chain'_cons'.mpr ⟨?_, ih _ _⟩
        intro y hy
        have hmem : y ∈ eScanAux n ((c :: cs2).drop L) (pos + L) :=
          List.mem_of_mem_head? hy
        exact (eScanAux_mem _ _ _ _ hmem).1
      | none => exact ih _ _

/-! ### SortedWithin: ordering machinery for emitted range lists -/

theorem sortedWithin_le : ∀ {l : List DecoRange} {a b : Nat},
    SortedWithin a l b → a ≤ b := by
  intro l
  induction l with
  | nil => intro a b h; exact h
  | cons r rs ih =>
    intro a b h
    obtain ⟨h1, h2, h3⟩ := h
    have := ih h3
    omega

theorem sortedWithin_mono_left {a a2 : Nat} {l : List DecoRange} {b : Nat}
    (h : SortedWithin a l b) (ha : a2 ≤ a) : SortedWithin a2 l b := by
  cases l with
  | nil => exact Nat.le_trans ha h
  | cons r rs => exact ⟨Nat.le_trans ha h.1, h.2.1, h.2.2⟩

theorem sortedWithin_mono_right : ∀ {l : List DecoRange} {a b b2 : Nat},
    SortedWithin a l b → b ≤ b2 → SortedWithin a l b2 := by
  intro l
  induction l with
  | nil => intro a b b2 h hb; exact Nat.le_trans h hb
  | cons r rs ih =>
    intro a b b2 h hb
    exact ⟨h.1, h.2.1, ih h.2.2 hb⟩

theorem sortedWithin_append : ∀ {l1 l2 : List DecoRange} {a m b : Nat},
    SortedWithin a l1 m → SortedWithin m l2 b → SortedWithin a (l1 ++ l2) b := by
  intro l1
  induction l1 with
  | nil => intro l2 a m b h1 h2; exact sortedWithin_mono_left h2 h1
  | cons r rs ih =>
    intro l2 a m b h1 h2
    exact ⟨h1.1, h1.2.1, ih h1.2.2 h2⟩

theorem sortedWithin_bounds : ∀ {l : List DecoRange} {a b : Nat},
    SortedWithin a l b → ∀ r ∈ l, a ≤ r.rFrom ∧ r.rTo ≤ b := by
  intro l
  induction l with
  | nil => intro a b _ r hr; cases hr
  | cons s rs ih =>
    intro a b h r hr
    obtain ⟨h1, h2, h3⟩ := h
    rcases List.mem_cons.mp hr with rfl | hr2
    · exact ⟨h1, sortedWithin_le h3⟩
    · obtain ⟨hl, hu⟩ := ih h3 r hr2
      exact ⟨by omega, hu⟩

theorem sortedWithin_pairwise : ∀ {l : List DecoRange} {a b : Nat},
    SortedWithin a l b →
    l.Pairwise (fun r s => r.rTo ≤ s.rFrom ∧ r.rFrom < s.rFrom) := by
  intro l
  induction l with
  | nil => intro a b _; exact List.Pairwise.nil
  | cons r rs ih =>
    intro a b h
    obtain ⟨h1, h2, h3⟩ := h
    refine List.Pairwise.cons ?_ (ih h3)
    intro s hs
    obtain ⟨hl, _⟩ := sortedWithin_bounds h3 s hs
    exact ⟨hl, by omega⟩

/-! ### Sortedness of the per-block range lists -/

theorem qBlockRanges_sorted {b : QBlock}
    (hwf : b.mlen = qBeginStr.length + b.name.length + 1 + b.content.length
      + qEndStr.length) :
    SortedWithin b.index (qBlockRanges b) (b.index + b.mlen) := by
  have h1 : qBeginStr.length = 20 := rfl
  have h2 : qEndStr.length = 17 := rfl
  have h3 : ("]" : String).length = 1 := rfl
  simp only [qBlockRanges]
  split
  next hgt =>
    simp only [List.singleton_append, SortedWithin]
    omega
  next hle =>
    simp only [List.nil_append, SortedWithin]
    omega

theorem scanItemsAux_offsOK : ∀ (fuel : Nat) (cs : List Char) (pos : Nat),
    OffsOK pos (pos + cs.length) (scanItemsAux fuel cs pos) := by
  intro fuel
  induction fuel with
  | zero => intro cs pos; exact Nat.le_add_right _ _
  | succ n ih =>
    intro cs pos
    match cs with
    | [] => exact Nat.le_add_right _ _
    | c :: cs2 =>
      rw [scanItemsAux]
      cases hf : findFrom itemL (c :: cs2) with
      | none => exact Nat.le_add_right _ _
      | some k =>
        have hb := findFrom_bound hf
        refine ⟨Nat.le_add_right _ _, by omega, ?_⟩
        have hrec := ih ((c :: cs2).drop (k + itemL.length)) (pos + k + itemL.length)
        have hdl : ((c :: cs2).drop (k + itemL.length)).length
            = (c :: cs2).length - (k + itemL.length) := List.length_drop _ _
        have heq : pos + k + itemL.length + ((c :: cs2).drop (k + itemL.length)).length
            = pos + (c :: cs2).length := by rw [hdl]; omega
        rw [heq] at hrec
        exact hrec

theorem offsOK_mono_right : ∀ {offs : List Nat} {a b b2 : Nat},
    OffsOK a b offs → b ≤ b2 → OffsOK a b2 offs := by
  intro offs
  induction offs with
  | nil => intro a b b2 h hb; exact Nat.le_trans h hb
  | cons o os ih =>
    intro a b b2 h hb
    exact ⟨h.1, Nat.le_trans h.2.1 hb, ih h.2.2 hb⟩

theorem itemRanges_sorted (fmt : ParsedFormat) (cS : Nat) :
    ∀ (offs : List Nat) (ctr a bnd : Nat), OffsOK a bnd offs →
    SortedWithin (cS + a) (itemRanges fmt cS offs ctr) (cS + bnd) := by
  intro offs
  induction offs with
  | nil => intro ctr a bnd h; exact Nat.add_le_add_left h cS
  | cons o os ih =>
    intro ctr a bnd h
    obtain ⟨h1, h2, h3⟩ := h
    have hil : itemL.length = 5 := rfl
    have his : itemStr.length = 5 := rfl
    refine ⟨by dsimp only; omega, by dsimp only; omega, ?_⟩
    have hrec := ih (ctr + 1) (o + itemL.length) bnd h3
    exact sortedWithin_mono_left hrec (by dsimp only; omega)

theorem eBlockRanges_sorted (text : String) (ic : Nat) {b : EBlock}
    (hwf : b.mlen = eBeginStr.length + optLen b.formatArg + b.content.length
      + eEndStr.length) :
    SortedWithin b.index (eBlockRanges text ic b) (b.index + b.mlen) := by
  have h1 : eBeginStr.length = 17 := rfl
  have h2 : eEndStr.length = 15 := rfl
  simp only [eBlockRanges]
  refine ⟨Nat.le_refl _, by dsimp only; omega, ?_⟩
  have hoffs := scanItemsAux_offsOK (eBlockContentSlice text b).length
    ((eBlockContentSlice text b).drop 0) 0
  have hbc : (eBlockContentSlice text b).drop 0 = eBlockContentSlice text b :=
    List.drop_zero _
  rw [hbc] at hoffs
  have hbclen : (eBlockContentSlice text b).length ≤ b.content.length := by
    simp only [eBlockContentSlice, List.length_take, List.length_drop]
    omega
  have hrec := itemRanges_sorted (parseFormat b.formatArg)
    (b.index + eBeginStr.length + optLen b.formatArg)
    (scanItems (eBlockContentSlice text b) 0) 0 0
    (eBlockContentSlice text b).length (by simpa using hoffs)
  have hrec2 := sortedWithin_mono_right hrec
    (Nat.add_le_add_left hbclen (b.index + eBeginStr.length + optLen b.formatArg))
  have hItems : SortedWithin (b.index + eBeginStr.length + optLen b.formatArg)
      (itemRanges (parseFormat b.formatArg)
        (b.index + eBeginStr.length + optLen b.formatArg)
        (scanItems ((eBlockContentSlice text b).drop 0) 0) 0)
      (b.index + eBeginStr.length + optLen b.formatArg + b.content.length) := by
    rw [hbc]
    exact sortedWithin_mono_left hrec2 (by omega)
  have hEnd : SortedWithin
      (b.index + eBeginStr.length + optLen b.formatArg + b.content.length)
      [⟨b.index + eBeginStr.length + optLen b.formatArg + b.content.length,
        b.index + eBeginStr.length + optLen b.formatArg + b.content.length
          + eEndStr.length, RangeKind.eEnd⟩]
      (b.index + b.mlen) := by
    refine ⟨Nat.le_refl _, by dsimp only; omega, ?_⟩
    simp only [SortedWithin]
    omega
  exact sortedWithin_append hItems hEnd

/-! ### Facts about concatMap -/

theorem mem_concatMap {f : α → List β} {r : β} : ∀ {l : List α},
    r ∈ concatMap f l ↔ ∃ a ∈ l, r ∈ f a := by
  intro l
  induction l with
  | nil => simp [concatMap]
  | cons x xs ih =>
    simp only [concatMap, List.mem_append, ih, List.mem_cons]
    constructor
    · rintro (h | ⟨a, ha, hr⟩)
      · exact ⟨x, Or.inl rfl, h⟩
      · exact ⟨a, Or.inr ha, hr⟩
    · rintro ⟨a, ha | ha, hr⟩
      · subst ha; exact Or.inl hr
      · exact Or.inr ⟨a, ha, hr⟩

theorem concatMap_congr {f g : α → List β} : ∀ {l : List α},
    (∀ a ∈ l, f a = g a) → concatMap f l = concatMap g l := by
  intro l
  induction l with
  | nil => intro _; rfl
  | cons x xs ih =>
    intro h
    simp only [concatMap]
    rw [h x (List.mem_cons_self x xs), ih (fun a ha => h a (List.mem_cons_of_mem x ha))]

theorem concatMap_map (s : β → γ) (g : α → List β) : ∀ (l : List α),
    concatMap (fun a => (g a).map s) l = (concatMap g l).map s := by
  intro l
  induction l with
  | nil => rfl
  | cons x xs ih => simp only [concatMap, List.map_append, ih]

/-! ### The main ordering invariant of the two scanners -/

theorem qScanAux_sortedWithin : ∀ (fuel : Nat) (cs : List Char) (pos : Nat),
    SortedWithin pos (concatMap qBlockRanges (qScanAux fuel cs pos))
      (pos + cs.length) := by
  intro fuel
  induction fuel with
  | zero => intro cs pos; exact Nat.le_add_right _ _
  | succ n ih =>
    intro cs pos
    match cs with
    | [] => exact Nat.le_add_right _ _
    | c :: cs2 =>
      rw [qScanAux]
      cases hm : qMatchAt (c :: cs2) with
      | none =>
        have hrec := ih cs2 (pos + 1)
        have hlen : pos + 1 + cs2.length = pos + (c :: cs2).length := by
          simp only [List.length_cons]; omega
        rw [hlen] at hrec
        exact sortedWithin_mono_left hrec (by omega)
      | some v =>
        obtain ⟨nm, ct, L⟩ := v
        obtain ⟨hL, hLle, _⟩ := qMatchAt_wf hm
        have hrec := ih ((c :: cs2).drop L) (pos + L)
        have hdl : ((c :: cs2).drop L).length = (c :: cs2).length - L :=
          List.length_drop _ _
        have hlen2 : pos + L + ((c :: cs2).drop L).length = pos + (c :: cs2).length := by
          rw [hdl]; omega
        rw [hlen2] at hrec
        simp only [concatMap]
        exact sortedWithin_append (@qBlockRanges_sorted ⟨pos, nm, ct, L⟩ hL) hrec

theorem eScanAux_sortedWithin (text : String) (ic : Nat) :
    ∀ (fuel : Nat) (cs : List Char) (pos : Nat),
    SortedWithin pos (concatMap (eBlockRanges text ic) (eScanAux fuel cs pos))
      (pos + cs.length) := by
  intro fuel
  induction fuel with
  | zero => intro cs pos; exact Nat.le_add_right _ _
  | succ n ih =>
    intro cs pos
    match cs with
    | [] => exact Nat.le_add_right _ _
    | c :: cs2 =>
      rw [eScanAux]
      cases hm : eMatchAt (c :: cs2) with
      | none =>
        have hrec := ih cs2 (pos + 1)
        have hlen : pos + 1 + cs2.length = pos + (c :: cs2).length := by
          simp only [List.length_cons]; omega
        rw [hlen] at hrec
        exact sortedWithin_mono_left hrec (by omega)
      | some v =>
        obtain ⟨fa, ct, L⟩ := v
        obtain ⟨hL, hLle, _⟩ := eMatchAt_wf hm
        have hrec := ih ((c :: cs2).drop L) (pos + L)
        have hdl : ((c :: cs2).drop L).length = (c :: cs2).length - L :=
          List.length_drop _ _
        have hlen2 : pos + L + ((c :: cs2).drop L).length = pos + (c :: cs2).length := by
          rw [hdl]; omega
        rw [hlen2] at hrec
        simp only [concatMap]
        exact sortedWithin_append (@eBlockRanges_sorted text ic ⟨pos, fa, ct, L⟩ hL) hrec

/-! ### Facts about the ordinal generators -/

theorem letterVal_append (l : List Char) (c : Char) :
    letterVal (l ++ [c]) = letterVal l * 26 + (c.toNat - 96) := by
  simp [letterVal, List.foldl_append]

theorem charOfNat_toNat : ∀ r < 26, (Char.ofNat (97 + r)).toNat = 97 + r := by decide

theorem numberToLetterAux_val : ∀ (fuel n : Nat), n ≤ fuel →
    letterVal (numberToLetterAux fuel n).data = n := by
  intro fuel
  induction fuel with
  | zero =>
    intro n h
    have : n = 0 := by omega
    subst this
    rfl
  | succ m ih =>
    intro n h
    match n with
    | 0 => rfl
    | k + 1 =>
      rw [numberToLetterAux, String.data_append, letterVal_append]
      rw [ih (k / 26) (by have := Nat.div_le_self k 26; omega)]
      rw [charOfNat_toNat (k % 26) (Nat.mod_lt k (by omega))]
      omega

theorem numberToLetterAux_chars : ∀ (fuel n : Nat) (c : Char),
    c ∈ (numberToLetterAux fuel n).data → 97 ≤ c.toNat ∧ c.toNat ≤ 122 := by
  intro fuel
  induction fuel with
  | zero => intro n c h; cases h
  | succ m ih =>
    intro n c h
    match n with
    | 0 => cases h
    | k + 1 =>
      rw [numberToLetterAux, String.data_append] at h
      rcases List.mem_append.mp h with h2 | h2
      · exact ih _ _ h2
      · have : c = Char.ofNat (97 + k % 26) := by simpa using h2
        subst this
        rw [charOfNat_toNat (k % 26) (Nat.mod_lt k (by omega))]
        have := Nat.mod_lt k (y := 26) (by omega)
        omega

/-! ### Item labels: the counters passed to the ordinal generator -/

theorem itemRanges_labels (fmt : ParsedFormat) (cS : Nat) :
    ∀ (offs : List Nat) (ctr : Nat),
    (itemRanges fmt cS offs ctr).filterMap itemLabelOf =
      (List.range offs.length).map (fun k => generateIdentifier (ctr + k + 1) fmt) := by
  intro offs
  induction offs with
  | nil => intro ctr; rfl
  | cons o os ih =>
    intro ctr
    simp only [itemRanges, List.filterMap_cons, itemLabelOf, List.length_cons,
      List.range_succ_eq_map, List.map_cons, List.map_map]
    rw [ih (ctr + 1)]
    refine List.cons_eq_cons.mpr ⟨rfl, ?_⟩
    apply List.map_congr_left
    intro k _
    simp only [Function.comp_apply]
    have harg : ctr + 1 + k + 1 = ctr + (k + 1) + 1 := by omega
    rw [harg]

/-! ### The visible-ranges variant -/

theorem bulldozerBlockRanges_shift (f : Nat) (b : QBlock) :
    bulldozerBlockRanges f b = (qBlockRanges b).map (shiftRange f) := by
  simp only [bulldozerBlockRanges, qBlockRanges]
  split
  next hgt =>
    rw [if_pos (by omega)]
    simp [shiftRange, Nat.add_assoc]
  next hle =>
    rw [if_neg (by omega)]
    simp [shiftRange, Nat.add_assoc]

theorem bulldozerBlockRanges_zero (b : QBlock) :
    bulldozerBlockRanges 0 b = qBlockRanges b := by
  simp only [bulldozerBlockRanges, qBlockRanges, Nat.zero_add]

/-! ### parseFormat facts -/

theorem parseFormatWarns_default : ∀ (arg : Option String),
    parseFormatWarns arg = true → parseFormat arg = defaultFormat := by
  intro arg
  unfold parseFormatWarns parseFormat parseFormatCore
  match arg with
  | none => intro h; cases h
  | some s =>
    dsimp only
    split
    · intro h; cases h
    · split
      · intro h; cases h
      · split
        · intro h; cases h
        · split
          · split
            · intro h; cases h
            · intro _; rfl
          · intro _; rfl

theorem shapeMatch_isSome_eq_claimShape : ∀ t : List Char,
    (shapeMatch t).isSome = claimShape t := by
  intro t
  unfold shapeMatch claimShape
  cases hd : ((splitParen t).2).dropWhile (fun c => c = ' ') with
  | nil => rfl
  | cons c rest =>
    by_cases h1 : c ∈ alphabetChars
    · by_cases h2 : rest.dropWhile (fun c => c = ' ') ∈ shapeSuffixes
      · simp [h1, h2]
      · simp [h1, h2]
    · simp [h1]

theorem chain'_iff_lenLexChainB : ∀ l : List String,
    List.Chain' lenLexLt l ↔ lenLexChainB l = true
  | [] => by simp [lenLexChainB]
  | [s] => by simp [lenLexChainB]
  | s :: t :: rest => by
    rw [List.chain'_cons,
      show lenLexChainB (s :: t :: rest)
        = (decide (lenLexLt s t) && lenLexChainB (t :: rest)) from rfl,
      Bool.and_eq_true, decide_eq_true_iff, chain'_iff_lenLexChainB (t :: rest)]

/-! ### The claims -/

/-- Claim C2: for the input `\begin\x7benumerate\x7d[(a)]\item One\item Two\end\x7benumerate\x7d`
the Ordered-List scanner emits exactly four ranges in document order: a
start range over the opening marker including its bracket argument, two
item ranges each replacing exactly one `\item` marker span and carrying
labels `(a)` and `(b)`, and an end range over the closing marker. -/
theorem claim_C2 :
    findAndDecorateEnumerateBlocks
        "\\begin\x7benumerate\x7d[(a)]\\item One\\item Two\\end\x7benumerate\x7d" 0 0 =
      [⟨0, 22, RangeKind.eStart (some "[(a)]")⟩,
       ⟨22, 27, RangeKind.eItem "(a)"⟩,
       ⟨31, 36, RangeKind.eItem "(b)"⟩,
       ⟨40, 55, RangeKind.eEnd⟩] := by decide

/-- Claim C3, counterexample: the bracket argument `[a))]` is recognized
by the Format Parser with the two-character suffix `))` and no
diagnostic, whereas the claim's shape (one alphabet character followed by
at most a single closing punctuation character) classifies `a))` as
unrecognized and therefore predicts the decimal default plus a
diagnostic. -/
theorem claim_C3_counterexample :
    parseFormat (some "[a))]") = ⟨'a', "", "))"⟩ ∧
    parseFormatWarns (some "[a))]") = false ∧
    parseFormat (some "[a))]") ≠ defaultFormat := by decide

/-- Claim C3, amended: the Format Parser recognizes a bracket argument
iff its bracket-stripped, trimmed text has the shape (optional `(`), then
(spaces allowed on either side) one alphabet character from `1 a A i I`,
then an optional punctuation character from `{., )}` followed by an
optional extra `)`; every unrecognized non-empty argument yields the
decimal default `{1, "", "."}` together with a diagnostic, and the parser
(a total function) never raises; an absent argument yields the decimal
default with suffix `.`; `parse("[a)]") = {a, "", ")"}`,
`parse("[(I)]") = {I, "(", ")"}`, and `parse("[xyz]")` falls back to the
decimal default with a diagnostic. -/
theorem claim_C3 :
    (∀ t : List Char, (shapeMatch t).isSome = claimShape t) ∧
    (∀ arg : Option String, parseFormatWarns arg = true →
      parseFormat arg = defaultFormat) ∧
    parseFormat none = defaultFormat ∧ parseFormatWarns none = false ∧
    parseFormat (some "[a)]") = ⟨'a', "", ")"⟩ ∧
    parseFormat (some "[(I)]") = ⟨'I', "(", ")"⟩ ∧
    parseFormat (some "[xyz]") = defaultFormat ∧
    parseFormatWarns (some "[xyz]") = true :=
  ⟨shapeMatch_isSome_eq_claimShape, parseFormatWarns_default,
   by decide, by decide, by decide, by decide, by decide, by decide⟩

theorem claim_C3_witness : parseFormat (some "[zz]") = defaultFormat :=
  claim_C3.2.1 (some "[zz]") (by decide)

/-- Claim C5: `numberToLetter` produces exactly the bijective base-26
numeral of its argument over the letters a-z: for every counter the
output evaluates back to the counter under the bijective base-26 digit
value (and for counters at least 1 it is a non-empty string of letters in
a-z, which pins it down uniquely); `1 ↦ a`, `26 ↦ z`, `27 ↦ aa`,
`28 ↦ ab`; the upper-Latin value is the uppercase of the lower-Latin
value for the same counter; and for counters 1..100 the lower-Latin
labels are strictly increasing in length-then-lexicographic order. -/
theorem claim_C5 :
    (∀ n : Nat, letterVal (numberToLetter n).data = n) ∧
    (∀ n : Nat, 1 ≤ n → numberToLetter n ≠ "" ∧
       ∀ c ∈ (numberToLetter n).data, 97 ≤ c.toNat ∧ c.toNat ≤ 122) ∧
    numberToLetter 1 = "a" ∧ numberToLetter 26 = "z" ∧
    numberToLetter 27 = "aa" ∧ numberToLetter 28 = "ab" ∧
    (∀ n : Nat, identifierValue 'A' n = (identifierValue 'a' n).toUpper) ∧
    List.Chain' lenLexLt ((List.range 100).map (fun k => numberToLetter (k + 1))) := by
  refine ⟨?_, ?_, by decide, by decide, by decide, by decide, ?_,
    (chain'_iff_lenLexChainB _).mpr (by decide)⟩
  · intro n
    exact numberToLetterAux_val n n (Nat.le_refl n)
  · intro n hn
    constructor
    · intro heq
      have hv := numberToLetterAux_val n n (Nat.le_refl n)
      rw [show numberToLetterAux n n = numberToLetter n from rfl, heq] at hv
      simp [letterVal] at hv
      omega
    · intro c hc
      exact numberToLetterAux_chars n n c hc
  · intro n
    rfl

theorem claim_C5_witness : numberToLetter 27 ≠ "" :=
  (claim_C5.2.1 27 (by decide)).1

/-- Claim C6: `numberToRoman` maps every counter in 1..3999 via the
subtractive algorithm over the descending value table
`{1000,900,500,400,100,90,50,40,10,9,5,4,1}` (the `romanLoop` fold), in
particular `4 ↦ iv`, `9 ↦ ix`, `1994 ↦ mcmxciv`, and for every counter
at most 0 or at least 4000 it returns the decimal rendering of the
counter itself (`0 ↦ "0"`, `4000 ↦ "4000"`) rather than failing. -/
theorem claim_C6 :
    (∀ num : Int, num ≤ 0 ∨ 4000 ≤ num → numberToRoman num = toString num) ∧
    (∀ num : Int, 1 ≤ num → num ≤ 3999 →
      numberToRoman num = romanLoop romanTable num.toNat) ∧
    numberToRoman 4 = "iv" ∧ numberToRoman 9 = "ix" ∧
    numberToRoman 1994 = "mcmxciv" ∧
    numberToRoman 0 = "0" ∧ numberToRoman 4000 = "4000" := by
  refine ⟨?_, ?_, by decide, by decide, by decide, by decide, by decide⟩
  · intro num h
    unfold numberToRoman
    rw [if_pos h]
  · intro num h1 h2
    unfold numberToRoman
    rw [if_neg (by omega)]

theorem claim_C6_witness : numberToRoman (-7) = toString (-7 : Int) :=
  claim_C6.1 (-7) (Or.inl (by decide))

/-- Claim C9: a scan's output depends only on the buffer text.  The
mutable `lastIndex` cursors of the module-level regex objects are
explicit arguments here, and both scanners reset them at the start of a
scan (and per block for `itemRegex`), so the output is independent of
the incoming cursor state; in particular two consecutive scans of the
same unchanged text produce identical range sequences. -/
theorem claim_C9 : ∀ (text : String) (c1 c2 i1 i2 : Nat),
    findAndDecorateQuestionEnvBlocks text c1 = findAndDecorateQuestionEnvBlocks text c2 ∧
    findAndDecorateEnumerateBlocks text c1 i1 = findAndDecorateEnumerateBlocks text c2 i2 := by
  intro text c1 c2 i1 i2
  exact ⟨rfl, rfl⟩

/-- Claim C1: for every match of the Named-Block scanner on any buffer,
the emitted ranges (start-marker span, content span when non-empty,
end-marker span) are contiguous and exactly tile the half-open interval
`[blockStart, blockEnd)` with no gaps and no overlaps; the computed
offsets satisfy `endMarkerStart + len("\end{questionenv}") = matchStart +
len(fullMatch)`; and the start range carries exactly the captured name. -/
theorem claim_C1 : ∀ (text : String) (b : QBlock), b ∈ qScan text.data 0 →
    tiles b.index (qBlockRanges b) (b.index + b.mlen) = true ∧
    (b.index + qBeginStr.length + b.name.length + "]".length + b.content.length)
      + qEndStr.length = b.index + b.mlen ∧
    (qBlockRanges b).head? = some ⟨b.index,
      b.index + qBeginStr.length + b.name.length + "]".length, RangeKind.qStart b.name⟩ := by
  intro text b hb
  obtain ⟨hpos, cs2, hm⟩ := qScanAux_mem _ _ _ _ hb
  obtain ⟨hL, hLle, hocc⟩ := qMatchAt_wf hm
  have h3 : ("]" : String).length = 1 := rfl
  refine ⟨?_, by omega, rfl⟩
  simp only [qBlockRanges]
  split
  next hgt =>
    simp [tiles]
    omega
  next hle =>
    simp [tiles]
    omega

theorem claim_C1_witness :
    (⟨0, "n", "x", 40⟩ : QBlock) ∈
        qScan "\\begin\x7bquestionenv\x7d[n]x\\end\x7bquestionenv\x7d".data 0 ∧
    tiles 0 (qBlockRanges ⟨0, "n", "x", 40⟩) (0 + 40) = true :=
  ⟨by decide,
   (claim_C1 "\\begin\x7bquestionenv\x7d[n]x\\end\x7bquestionenv\x7d" ⟨0, "n", "x", 40⟩
      (by decide)).1⟩

/-- Claim C4: for every buffer and every Ordered-List block found in it,
the item labels emitted within that block are exactly the ordinal labels
of the counters `1, 2, ..., n` in left-to-right item order (the counter
restarts from 1 inside every block, so it is never shared across
blocks), and a block containing zero item markers produces only its
start and end ranges. -/
theorem claim_C4 : ∀ (text : String) (b : EBlock), b ∈ eScan text.data 0 →
    ((eBlockRanges text 0 b).filterMap itemLabelOf =
      (List.range (scanItems (eBlockContentSlice text b) 0).length).map
        (fun k => generateIdentifier (k + 1) (parseFormat b.formatArg))) ∧
    (scanItems (eBlockContentSlice text b) 0 = [] →
      eBlockRanges text 0 b =
        [⟨b.index, b.index + eBeginStr.length + optLen b.formatArg,
          RangeKind.eStart b.formatArg⟩,
         ⟨b.index + eBeginStr.length + optLen b.formatArg + b.content.length,
          b.index + eBeginStr.length + optLen b.formatArg + b.content.length
            + eEndStr.length, RangeKind.eEnd⟩]) := by
  intro text b hb
  constructor
  · simp only [eBlockRanges, List.filterMap_cons, List.filterMap_append, itemLabelOf,
      List.drop_zero]
    rw [itemRanges_labels]
    simp only [List.filterMap_nil, List.append_nil]
    apply List.map_congr_left
    intro k _
    rw [Nat.zero_add]
  · intro h0
    simp only [eBlockRanges, List.drop_zero, h0, itemRanges]
    rfl

theorem claim_C4_witness :
    eBlockRanges "\\begin\x7benumerate\x7dab\\end\x7benumerate\x7d" 0 ⟨0, none, "ab", 34⟩ =
      [⟨0, 17, RangeKind.eStart none⟩, ⟨19, 34, RangeKind.eEnd⟩] :=
  (claim_C4 "\\begin\x7benumerate\x7dab\\end\x7benumerate\x7d" ⟨0, none, "ab", 34⟩
    (by decide)).2 (by decide)

/-- Claim C7: for every buffer, the sequence of ranges emitted by each
scanner in one scan is in strictly increasing start-offset order and
pairwise non-overlapping as half-open intervals, both within one block
and across distinct blocks of the same grammar. -/
theorem claim_C7 : ∀ text : String,
    (findAndDecorateQuestionEnvBlocks text 0).Pairwise
      (fun r s => r.rTo ≤ s.rFrom ∧ r.rFrom < s.rFrom) ∧
    (findAndDecorateEnumerateBlocks text 0 0).Pairwise
      (fun r s => r.rTo ≤ s.rFrom ∧ r.rFrom < s.rFrom) := by
  intro text
  constructor
  · exact sortedWithin_pairwise
      (qScanAux_sortedWithin (text.data.drop 0).length (text.data.drop 0) 0)
  · exact sortedWithin_pairwise
      (eScanAux_sortedWithin text 0 (text.data.drop 0).length (text.data.drop 0) 0)

/-- Claim C8: for every buffer and every block match of either scanner,
the captured content contains no occurrence of the grammar's end literal
(each block terminates at the nearest following end literal); the content
may span line breaks (witnessed by a concrete multi-line match); and
successive matches are non-overlapping because scanning resumes at the
end of the previous match. -/
theorem claim_C8 :
    (∀ (text : String) (b : QBlock), b ∈ qScan text.data 0 →
       ∀ j, qEndL.isPrefixOf (b.content.data.drop j) = false) ∧
    (∀ (text : String) (b : EBlock), b ∈ eScan text.data 0 →
       ∀ j, eEndL.isPrefixOf (b.content.data.drop j) = false) ∧
    (∀ text : String, List.Chain' (fun a b => a.index + a.mlen ≤ b.index)
       (qScan text.data 0)) ∧
    (∀ text : String, List.Chain' (fun a b => a.index + a.mlen ≤ b.index)
       (eScan text.data 0)) ∧
    qScan "\\begin\x7bquestionenv\x7d[n]a\nb\\end\x7bquestionenv\x7d".data 0 =
      [⟨0, "n", "a\nb", 42⟩] := by
  refine ⟨?_, ?_, ?_, ?_, by decide⟩
  · intro text b hb j
    obtain ⟨_, cs2, hm⟩ := qScanAux_mem _ _ _ _ hb
    exact (qMatchAt_wf hm).2.2 j
  · intro text b hb j
    obtain ⟨_, cs2, hm⟩ := eScanAux_mem _ _ _ _ hb
    exact (eMatchAt_wf hm).2.2 j
  · intro text
    exact qScanAux_chain _ _ _
  · intro text
    exact eScanAux_chain _ _ _

theorem claim_C8_witness :
    qEndL.isPrefixOf ((("a\nb" : String)).data.drop 0) = false :=
  claim_C8.1 "\\begin\x7bquestionenv\x7d[n]a\nb\\end\x7bquestionenv\x7d"
    ⟨0, "n", "a\nb", 42⟩ (by decide) 0

/-- Claim C10: the visible-range variant of the Named-Block scanner,
given a single visible range covering the entire document
`[0, length)`, produces exactly the same decoration ranges as the
full-document variant; and for arbitrary visible ranges (each within the
document) every emitted range lies entirely inside some single visible
slice, so a block spanning a slice boundary yields no ranges. -/
theorem claim_C10 : ∀ (text : String) (visible : List (Nat × Nat)),
    (∀ ft ∈ visible, ft.1 ≤ ft.2 ∧ ft.2 ≤ text.length) →
    (findAndDecorateBulldozerBlocks text [(0, text.length)] =
      findAndDecorateQuestionEnvBlocks text 0) ∧
    (∀ r ∈ findAndDecorateBulldozerBlocks text visible,
      ∃ ft ∈ visible, ft.1 ≤ r.rFrom ∧ r.rTo ≤ ft.2) := by
  intro text visible hv
  constructor
  · simp only [findAndDecorateBulldozerBlocks, findAndDecorateQuestionEnvBlocks,
      concatMap, List.append_nil, List.drop_zero, Nat.sub_zero, String.length]
    rw [List.take_length]
    exact concatMap_congr (fun b _ => bulldozerBlockRanges_zero b)
  · intro r hr
    have hr2 : r ∈ concatMap (fun ft =>
        concatMap (bulldozerBlockRanges ft.1)
          (qScan ((((text.data.drop ft.1).take (ft.2 - ft.1))).drop 0) 0)) visible := hr
    obtain ⟨ft, hft, hrft⟩ := mem_concatMap.mp hr2
    refine ⟨ft, hft, ?_⟩
    obtain ⟨hf1, hf2⟩ := hv ft hft
    have heq : concatMap (bulldozerBlockRanges ft.1)
        (qScan ((((text.data.drop ft.1).take (ft.2 - ft.1))).drop 0) 0)
        = (concatMap qBlockRanges
            (qScan ((((text.data.drop ft.1).take (ft.2 - ft.1))).drop 0) 0)).map
          (shiftRange ft.1) := by
      rw [← concatMap_map]
      exact concatMap_congr (fun b _ => bulldozerBlockRanges_shift ft.1 b)
    rw [heq] at hrft
    obtain ⟨r0, hr0, rfl⟩ := List.mem_map.mp hrft
    have hsw := qScanAux_sortedWithin
      ((((text.data.drop ft.1).take (ft.2 - ft.1))).drop 0).length
      ((((text.data.drop ft.1).take (ft.2 - ft.1))).drop 0) 0
    obtain ⟨hb1, hb2⟩ := sortedWithin_bounds hsw r0 hr0
    have hlen : ((((text.data.drop ft.1).take (ft.2 - ft.1))).drop 0).length
        ≤ ft.2 - ft.1 := by
      simp only [List.drop_zero, List.length_take]
      omega
    simp only [shiftRange]
    constructor
    · omega
    · omega

theorem claim_C10_witness :
    (∀ ft ∈ ([(0, ("\\begin\x7bquestionenv\x7d[n]x\\end\x7bquestionenv\x7d" : String).length)] :
        List (Nat × Nat)),
      ft.1 ≤ ft.2 ∧
        ft.2 ≤ ("\\begin\x7bquestionenv\x7d[n]x\\end\x7bquestionenv\x7d" : String).length) ∧
    findAndDecorateBulldozerBlocks "\\begin\x7bquestionenv\x7d[n]x\\end\x7bquestionenv\x7d"
        [(0, ("\\begin\x7bquestionenv\x7d[n]x\\end\x7bquestionenv\x7d" : String).length)] =
      findAndDecorateQuestionEnvBlocks "\\begin\x7bquestionenv\x7d[n]x\\end\x7bquestionenv\x7d" 0 :=
  ⟨by decide,
   (claim_C10 "\\begin\x7bquestionenv\x7d[n]x\\end\x7bquestionenv\x7d"
      [(0, ("\\begin\x7bquestionenv\x7d[n]x\\end\x7bquestionenv\x7d" : String).length)]
      (by decide)).1⟩
